import Mathlib

/-!
Shallow embedding of the EasyMotion plugin core
(`src/pinyin-search.ts` and `src/easymotion.ts`).

Modelling conventions, used throughout this development:

* JavaScript strings are modelled as `List Char` (abbreviated `Str`);
  string indices are character positions.
* `String.prototype.toLowerCase` is modelled as `Char.toLower` applied
  characterwise (the source only ever lowercases ASCII letters, pinyin
  syllables and label characters).
* The external `pinyin-pro` library (the only code outside this
  repository that the matcher calls) is abstracted as a parameter
  `py : Str → List Str`, the list of syllable strings that
  `PinyinSearch.getPinyin` returns for a text.  All theorems hold for
  every such function.
* Screen geometry (`Range.getClientRects`, viewport bounds) is supplied
  by the rendering collaborator; the collector model treats every match
  rectangle as present and visible, and carries the rectangle's
  `left`/`top` coordinates as rationals in the `Match` structure.
-/

namespace EasyMotion

/-- JavaScript strings, as lists of characters. -/
abbrev Str := List Char

/-- Model of `s.toLowerCase()`: characterwise ASCII lowering. -/
def lowerStr (s : Str) : Str := s.map Char.toLower

/-- Model of `s.includes(sub)`: substring (contiguous) containment test. -/
def strIncludes (s sub : Str) : Bool := decide (sub <:+: s)

/-- All start offsets at which `q` occurs in `t`, in increasing order.
The source enumerates these with `indexOf(q)` / `indexOf(q, i + 1)`
steps, which for a non-empty `q` visits exactly the positions where `q`
occurs, in increasing order; this definition lists the same positions by
scanning every start.  (For the empty query the source loop would not
terminate; see `findMatchIndices`.) -/
def occList (t q : Str) : List Nat :=
  (List.range t.length).filter (fun i => q.isPrefixOf (t.drop i))

section CharLemmas

theorem char_toNat_ofNat_valid {n : Nat} (h : n.isValidChar) :
    (Char.ofNat n).toNat = n := by
  simp only [Char.ofNat, dif_pos h, Char.ofNatAux, Char.toNat]
  rfl

theorem char_toLower_toLower (c : Char) : c.toLower.toLower = c.toLower := by
  unfold Char.toLower
  by_cases h : c.toNat ≥ 65 ∧ c.toNat ≤ 90
  · rw [if_pos h]
    have hv : (c.toNat + 32).isValidChar := Or.inl (by omega)
    have ht : (Char.ofNat (c.toNat + 32)).toNat = c.toNat + 32 :=
      char_toNat_ofNat_valid hv
    rw [if_neg (by omega)]
  · rw [if_neg h, if_neg h]

theorem char_ws_toNat {d : Char} (h : d.isWhitespace = true) :
    d.toNat = 32 ∨ d.toNat = 9 ∨ d.toNat = 13 ∨ d.toNat = 10 := by
  unfold Char.isWhitespace at h
  simp only [Bool.or_eq_true, decide_eq_true_eq] at h
  rcases h with ((h | h) | h) | h <;> subst h <;> simp [Char.toNat]

theorem char_isWhitespace_toLower (c : Char) :
    c.toLower.isWhitespace = c.isWhitespace := by
  unfold Char.toLower
  by_cases h : c.toNat ≥ 65 ∧ c.toNat ≤ 90
  · rw [if_pos h]
    have hv : (c.toNat + 32).isValidChar := Or.inl (by omega)
    have ht : (Char.ofNat (c.toNat + 32)).toNat = c.toNat + 32 :=
      char_toNat_ofNat_valid hv
    have h1 : (Char.ofNat (c.toNat + 32)).isWhitespace = false := by
      cases hws : (Char.ofNat (c.toNat + 32)).isWhitespace with
      | false => rfl
      | true => exact absurd (char_ws_toNat hws) (by omega)
    have h2 : c.isWhitespace = false := by
      cases hws : c.isWhitespace with
      | false => rfl
      | true => exact absurd (char_ws_toNat hws) (by omega)
    rw [h1, h2]
  · rw [if_neg h]

end CharLemmas

section StrLemmas

@[simp] theorem length_lowerStr (s : Str) : (lowerStr s).length = s.length := by
  simp [lowerStr]

theorem lowerStr_append (s t : Str) :
    lowerStr (s ++ t) = lowerStr s ++ lowerStr t := by
  simp [lowerStr]

theorem lowerStr_lowerStr (s : Str) : lowerStr (lowerStr s) = lowerStr s := by
  simp only [lowerStr, List.map_map]
  exact List.map_congr_left (fun c _ => char_toLower_toLower c)

theorem strIncludes_iff {s sub : Str} : strIncludes s sub = true ↔ sub <:+: s := by
  simp [strIncludes]

theorem lowerStr_mono {s t : Str} (h : s <:+: t) :
    lowerStr s <:+: lowerStr t := List.IsInfix.map Char.toLower h

theorem mem_occList {t q : Str} {i : Nat} :
    i ∈ occList t q ↔ i < t.length ∧ q <+: t.drop i := by
  simp [occList, List.mem_filter, List.mem_range, List.isPrefixOf_iff_prefix,
    and_comm]

theorem occList_ne_nil {t q : Str} (hq : q ≠ []) (h : q <:+: t) :
    occList t q ≠ [] := by
  rcases h with ⟨s, u, rfl⟩
  have hi : s.length < (s ++ q ++ u).length := by
    rcases q with _ | ⟨c, q⟩
    · exact absurd rfl hq
    · simp
  have hp : q <+: (s ++ q ++ u).drop s.length := by
    have : (s ++ q ++ u).drop s.length = q ++ u := by
      rw [List.append_assoc, List.drop_append_of_le_length (by simp)]
      simp
    rw [this]
    exact ⟨u, rfl⟩
  exact List.ne_nil_of_mem (mem_occList.mpr ⟨hi, hp⟩)

theorem occList_bound {t q : Str} {i : Nat} (h : i ∈ occList t q) :
    i + q.length ≤ t.length := by
  rcases mem_occList.mp h with ⟨hi, hp⟩
  have := hp.length_le
  simp [List.length_drop] at this
  omega

end StrLemmas

/-- Model of `s.split(/\s+/)`: split on maximal whitespace runs, carrying the
current (reversed) piece and whether the previous character was
whitespace (to collapse a run into one separator).  A leading
(resp. trailing) whitespace run contributes an empty first (resp. last)
piece, and the empty string splits to `[""]`, matching the JavaScript
semantics.  `\s` is modelled as `Char.isWhitespace`. -/
def splitWsAux : Str → Str → Bool → List Str
  | [], cur, _ => [cur.reverse]
  | c :: rest, cur, prevWs =>
    if c.isWhitespace then
      if prevWs then splitWsAux rest [] true
      else cur.reverse :: splitWsAux rest [] true
    else splitWsAux rest (c :: cur) false

def splitWs (s : Str) : List Str := splitWsAux s [] false

/-- Model of `array.join(' ')`: concatenation with a single-space separator. -/
def joinSpace (l : List Str) : Str := (l.intersperse [' ']).flatten

/-- Model of `array.join('')`: plain concatenation. -/
def joinAll (l : List Str) : Str := l.flatten

/-! ### `PinyinSearch` (src/pinyin-search.ts)

`PinyinSearch.getPinyin` forwards to the external `pinyin-pro` library
(returning `[]` if the library throws); it is the abstract parameter
`py` here, so `getPinyin text = py text` throughout. -/

/-- The `type` field of `PinyinMatchResult`.  `partPinyin`/`partInitials`
model the source's `'partial-pinyin'`/`'partial-initials'` tags, and
`noMatch` models `'none'`. -/
inductive MatchType where
  | direct
  | pinyin
  | initials
  | partPinyin
  | partInitials
  | enhanced
  | noMatch
deriving DecidableEq, Repr

/-- The exported `PinyinMatchResult` interface (src/pinyin-search.ts). -/
structure PinyinMatchResult where
  matched : Bool
  type : MatchType
  pinyin : Option Str
  originalText : Str
  matchedIndices : List Nat
deriving DecidableEq, Repr

/-- Model of `PinyinSearch.getPinyinInitials`: lower-cased first character of each
syllable, concatenated (`charAt(0)` of an empty syllable is the empty
string). -/
def getPinyinInitials (py : Str → List Str) (text : Str) : Str :=
  ((py text).map (fun syl =>
    match syl with
    | [] => ([] : Str)
    | c :: _ => [c.toLower])).flatten

/-- Model of `PinyinSearch.findMatchIndices`: all start offsets of
case-insensitive occurrences of `query` in `text`, found by repeated
`indexOf` from the previous hit plus one.  For the empty query the
source loop does not terminate (JS `indexOf('',\ i)` clamps to the
string length); this total model returns `[]` there, and every theorem
touching this corner carries a non-empty-query hypothesis. -/
def findMatchIndices (text query : Str) : List Nat :=
  occList (lowerStr text) (lowerStr query)

/-- The partial-match loop of `PinyinSearch.matchPinyin`: first whitespace
piece of the lowered query that occurs in the space-joined pinyin, then
in the initials, wins. -/
def tryParts (textStr textPinyin textInitials : Str) : List Str → Option PinyinMatchResult
  | [] => Option.none
  | part :: rest =>
    if strIncludes (lowerStr textPinyin) part then
      some ⟨true, MatchType.partPinyin, some textPinyin, textStr,
        findMatchIndices textPinyin part⟩
    else if strIncludes textInitials part then
      some ⟨true, MatchType.partInitials, some textInitials, textStr,
        findMatchIndices textInitials part⟩
    else tryParts textStr textPinyin textInitials rest

/-- Model of `PinyinSearch.matchPinyin` for a string `searchText` (the
`string[]` overload joins first and is never used by the collector).
Returns `Option.none` exactly where the source returns `null` (falsy
text or query). -/
def matchPinyin (py : Str → List Str) (searchText searchQuery : Str) :
    Option PinyinMatchResult :=
  if searchText.isEmpty || searchQuery.isEmpty then Option.none
  else
    let textStr := searchText
    if strIncludes textStr searchQuery then
      some ⟨true, MatchType.direct, Option.none, textStr,
        findMatchIndices textStr searchQuery⟩
    else
      let textPinyin := joinSpace (py textStr)
      let textPinyinNoSpace := joinAll (py textStr)
      let textInitials := getPinyinInitials py textStr
      if strIncludes (lowerStr textPinyin) (lowerStr searchQuery) then
        some ⟨true, MatchType.pinyin, some textPinyin, textStr,
          findMatchIndices textPinyin searchQuery⟩
      else if strIncludes (lowerStr textPinyinNoSpace) (lowerStr searchQuery) then
        some ⟨true, MatchType.pinyin, some textPinyinNoSpace, textStr,
          findMatchIndices textPinyinNoSpace searchQuery⟩
      else if strIncludes textInitials (lowerStr searchQuery) then
        some ⟨true, MatchType.initials, some textInitials, textStr,
          findMatchIndices textInitials searchQuery⟩
      else
        match tryParts textStr textPinyin textInitials (splitWs (lowerStr searchQuery)) with
        | some r => some r
        | Option.none =>
          some ⟨false, MatchType.noMatch, Option.none, textStr, []⟩

/-- The character class `[a-zA-Z0-9]` used by the fallback scans. -/
def isAlnumAscii (c : Char) : Bool :=
  ('a' ≤ c && c ≤ 'z') || ('A' ≤ c && c ≤ 'Z') || ('0' ≤ c && c ≤ '9')

/-- Model of `PinyinSearch.isSingleCharPinyinMatch`. -/
def isSingleCharPinyinMatch (py : Str → List Str) (text query : Str) : Bool :=
  if query.length != 1 then false
  else
    let queryLower := lowerStr query
    if strIncludes (lowerStr text) queryLower then true
    else
      text.any (fun c =>
        if isAlnumAscii c then false
        else (py [c]).any (fun syl =>
          (match syl with
           | [] => ([] : Str)
           | ch :: _ => [ch.toLower]) == queryLower))

/-- Model of `PinyinSearch.isFullPinyinMatch`.  The final explicit substring scan
runs for offsets `0 ≤ i < |noSpace| - |query| + 1`; with `Nat`
truncation `|noSpace| + 1 - |query|` matches the JS loop bound, which
performs no iteration when the query is longer than the text. -/
def isFullPinyinMatch (py : Str → List Str) (text query : Str) : Bool :=
  if query.length < 2 then false
  else
    let queryLower := lowerStr query
    let ws := lowerStr (joinSpace (py text))
    let ns := lowerStr (joinAll (py text))
    let ini := lowerStr (getPinyinInitials py text)
    strIncludes ws queryLower || strIncludes ns queryLower ||
      strIncludes ini queryLower ||
      (splitWs ws).any (fun w => queryLower.isPrefixOf w) ||
      (List.range (ns.length + 1 - queryLower.length)).any
        (fun i => (ns.drop i).take queryLower.length == queryLower)

/-- Model of `PinyinSearch.enhancedMatch`: any query matches directly
(case-insensitively), via `matchPinyin`, or via one of the two fallback
predicates. -/
def enhancedMatch (py : Str → List Str) (text : Str) (queries : List Str) : Bool :=
  if text.isEmpty || queries.isEmpty then false
  else
    queries.any (fun query =>
      !query.isEmpty &&
        (strIncludes (lowerStr text) (lowerStr query) ||
         (match matchPinyin py text query with
          | some r => r.matched
          | Option.none => false) ||
         isSingleCharPinyinMatch py text query ||
         isFullPinyinMatch py text query))

section SplitLemmas

theorem splitWsAux_lowerStr (s : Str) :
    ∀ (cur : Str) (b : Bool),
      splitWsAux (lowerStr s) (lowerStr cur) b =
        (splitWsAux s cur b).map lowerStr := by
  induction s with
  | nil =>
    intro cur b
    simp [splitWsAux, lowerStr]
  | cons c rest ih =>
    intro cur b
    show splitWsAux (c.toLower :: lowerStr rest) (lowerStr cur) b = _
    rw [splitWsAux, splitWsAux, char_isWhitespace_toLower]
    by_cases hc : c.isWhitespace
    · rw [if_pos hc, if_pos hc]
      cases b with
      | true =>
        rw [if_pos rfl, if_pos rfl]
        have := ih [] true
        simpa [lowerStr] using this
      | false =>
        rw [if_neg (by simp), if_neg (by simp)]
        have h2 : splitWsAux (lowerStr rest) [] true =
            (splitWsAux rest [] true).map lowerStr := by
          simpa [lowerStr] using ih [] true
        rw [h2]
        simp [lowerStr]
    · rw [if_neg hc, if_neg hc]
      have := ih (c :: cur) false
      rw [show lowerStr (c :: cur) = c.toLower :: lowerStr cur from rfl] at this
      exact this

theorem splitWs_lowerStr (s : Str) :
    splitWs (lowerStr s) = (splitWs s).map lowerStr := by
  have := splitWsAux_lowerStr s [] false
  simpa [splitWs] using this

/-- Every piece of a lowered split is itself already lowered. -/
theorem mem_splitWs_lowerStr {p : Str} {s : Str}
    (h : p ∈ splitWs (lowerStr s)) : lowerStr p = p := by
  rw [splitWs_lowerStr] at h
  rcases List.mem_map.mp h with ⟨p0, _, rfl⟩
  exact lowerStr_lowerStr p0

end SplitLemmas

theorem lowerStr_getPinyinInitials (py : Str → List Str) (t : Str) :
    lowerStr (getPinyinInitials py t) = getPinyinInitials py t := by
  unfold getPinyinInitials lowerStr
  rw [List.map_flatten, List.map_map]
  congr 1
  refine List.map_congr_left (fun syl _ => ?_)
  cases syl with
  | nil => rfl
  | cons c rest => simp [char_toLower_toLower]

/-! ### `EasyMotionManager` (src/easymotion.ts) -/

/-- The fixed label alphabet `this.characters = 'qwerasdfzxcv'`. -/
def characters : Str := ['q', 'w', 'e', 'r', 'a', 's', 'd', 'f', 'z', 'x', 'c', 'v']

/-- JavaScript string indexing `s[i]` as it behaves inside a string
concatenation: the one-character string for an in-range index, and the
text `"undefined"` (the stringification of the out-of-range result) for
an out-of-range index. -/
def jsCharAt (s : Str) (i : Nat) : Str :=
  match s.drop i with
  | [] => ['u', 'n', 'd', 'e', 'f', 'i', 'n', 'e', 'd']
  | c :: _ => [c]

/-- Model of `EasyMotionManager.generateLabels`: one-character labels when
`count ≤ 12`; otherwise every label is `chars[⌊i/12⌋] + chars[i % 12]`. -/
def generateLabels (count : Nat) : List Str :=
  if count ≤ characters.length then
    (List.range count).map (fun i => jsCharAt characters i)
  else
    (List.range count).map (fun i =>
      jsCharAt characters (i / characters.length) ++
        jsCharAt characters (i % characters.length))

/-- A collected match.  `node`, `rect` and `allRects` come from the DOM;
the model keeps an opaque node id and the primary rectangle's `left` and
`top` (the only geometry the core algorithms read). -/
structure Match where
  node : Nat
  index : Nat
  length : Nat
  left : ℚ
  top : ℚ
  pyMatch : Option PinyinMatchResult
deriving DecidableEq

/-- Model of `Math.abs` on rationals. -/
def rabs (x : ℚ) : ℚ := if x < 0 then -x else x

/-- The duplicate test of `removeDuplicateMatches`: both primary-rect
coordinates differ by strictly less than 5 pixels. -/
def isDupOf (current existing : Match) : Bool :=
  rabs (current.left - existing.left) < 5 && rabs (current.top - existing.top) < 5

/-- Model of `EasyMotionManager.removeDuplicateMatches`: keep a match unless some
already-kept match is within tolerance. -/
def removeDuplicateMatches (ms : List Match) : List Match :=
  ms.foldl
    (fun uniqueMatches current =>
      if uniqueMatches.any (fun existing => isDupOf current existing) then
        uniqueMatches
      else uniqueMatches ++ [current])
    []

/-- First-insertion-order deduplication, the effect of
`[...new Set(indices)]`. -/
def jsSetDedup (l : List Nat) : List Nat :=
  l.foldl (fun acc x => if x ∈ acc then acc else acc ++ [x]) []

/-- Model of `EasyMotionManager.findEnhancedMatchIndices`.  Stages, as in the
source: direct case-insensitive hits (early return for a one-character
query that has them); otherwise a per-character scan of non-alphanumeric
characters — by pinyin-initial prefix for a one-character query, by
syllable containment/initial equality otherwise — then
dedup, range-filter and ascending sort. -/
def enhDirectStage (text queryLower : Str) : List Nat :=
  if strIncludes (lowerStr text) queryLower then
    (occList (lowerStr text) queryLower).filter (fun i => i < text.length)
  else []

/-- The per-character scan of the one-character-query branch: the first
pinyin option's lowered form must start with the query character. -/
def enhSingleScan (py : Str → List Str) (text queryLower : Str) : List Nat :=
  (List.range text.length).filterMap (fun i =>
    match text.drop i with
    | [] => Option.none
    | c :: _ =>
      if isAlnumAscii c then Option.none
      else
        match py [c] with
        | [] => Option.none
        | syl :: _ =>
          if queryLower.isPrefixOf (lowerStr syl) then some i
          else Option.none)

/-- The per-character scan of the multi-character-query branch:
concatenated syllables contain the query, or the first initial equals
it, or the space-joined syllables contain it. -/
def enhFullScan (py : Str → List Str) (text queryLower : Str) : List Nat :=
  (List.range text.length).filterMap (fun i =>
    match text.drop i with
    | [] => Option.none
    | c :: _ =>
      if isAlnumAscii c then Option.none
      else
        let charPinyin := py [c]
        let charPinyinStr := lowerStr (joinAll charPinyin)
        let charInitial : Str :=
          match charPinyin with
          | [] => []
          | syl :: _ =>
            match syl with
            | [] => []
            | ch :: _ => [ch.toLower]
        if strIncludes charPinyinStr queryLower ||
            charInitial == queryLower ||
            strIncludes (lowerStr (joinSpace charPinyin)) queryLower then
          some i
        else Option.none)

def findEnhancedMatchIndices (py : Str → List Str) (text query : Str) : List Nat :=
  let queryLower := lowerStr query
  let direct := enhDirectStage text queryLower
  if query.length == 1 && !direct.isEmpty then
    direct.filter (fun i => i < text.length)
  else
    let extra : List Nat :=
      if query.length == 1 then enhSingleScan py text queryLower
      else enhFullScan py text queryLower
    ((jsSetDedup (direct ++ extra)).filter (fun i => i < text.length)).mergeSort
      (fun a b => a ≤ b)

/-- One candidate of the direct branch of
`findVisibleMatchesWithPinyin`: the inline `pinyinMatch` literal
`{matched: true, type: 'direct', …, matchedIndices: [index]}`. -/
def directResult (text : Str) (index : Nat) : PinyinMatchResult :=
  ⟨true, MatchType.direct, Option.none, text, [index]⟩

/-- The enhanced-fallback tail of the per-keyword loop of
`findVisibleMatchesWithPinyin`. -/
def enhancedCands (py : Str → List Str) (node : Nat) (text keyword : Str) :
    List Match :=
  (findEnhancedMatchIndices py text keyword).map (fun matchIndex =>
    -- matchLength = min(keyword.length, text.length - matchIndex)
    ⟨node, matchIndex, min keyword.length (text.length - matchIndex), 0, 0,
      some ⟨true, MatchType.enhanced, some keyword, text, [matchIndex]⟩⟩)

/-- The body of the per-keyword loop of `findVisibleMatchesWithPinyin`
for one text span: direct case-insensitive occurrences if any exist
(skipping the rest), else `matchPinyin` hits, else the enhanced
fallback.  Rectangle computation and viewport filtering are supplied by
the DOM collaborator and are abstracted as always-visible; the emitted
coordinates are the abstract origin. -/
def collectToken (py : Str → List Str) (node : Nat) (text keyword : Str) :
    List Match :=
  let textLower := lowerStr text
  let keywordLower := lowerStr keyword
  if strIncludes textLower keywordLower then
    (occList textLower keywordLower).filterMap (fun index =>
      if index + keyword.length ≤ text.length then
        some ⟨node, index, keyword.length, 0, 0, some (directResult text index)⟩
      else Option.none)
  else
    match matchPinyin py text keyword with
    | some matchResult =>
      if matchResult.matched && !matchResult.matchedIndices.isEmpty then
        matchResult.matchedIndices.filterMap (fun matchIndex =>
          if matchIndex < text.length then
            -- endPosition = min(matchIndex + keyword.length, text.length)
            some ⟨node, matchIndex,
              min (matchIndex + keyword.length) text.length - matchIndex, 0, 0,
              some matchResult⟩
          else Option.none)
      else enhancedCands py node text keyword
    | Option.none => enhancedCands py node text keyword

/-- Per-span processing of `findVisibleMatchesWithPinyin`: the span is
scanned only when `enhancedMatch` accepts it, and empty keywords are
skipped. -/
def collectSpan (py : Str → List Str) (node : Nat) (text : Str)
    (keywords : List Str) : List Match :=
  if enhancedMatch py text keywords then
    (keywords.map (fun keyword =>
      if keyword.isEmpty then [] else collectToken py node text keyword)).flatten
  else []

/-- The span walk of `findVisibleMatchesWithPinyin`: spans are processed
in order and the walk stops once the accumulated matches exceed 300
(`if (matches.length > 300) break`), checked after each span. -/
def collectSpans (py : Str → List Str) (keywords : List Str) :
    List (Nat × Str) → List Match → List Match
  | [], acc => acc
  | (node, text) :: rest, acc =>
    let acc' := acc ++ collectSpan py node text keywords
    if 300 < acc'.length then acc'
    else collectSpans py keywords rest acc'

/-- Model of `EasyMotionManager.findVisibleMatchesWithPinyin` over a document
given as the ordered list of visible text spans (node id and text). -/
def findVisibleMatchesWithPinyin (py : Str → List Str)
    (spans : List (Nat × Str)) (keywords : List Str) : List Match :=
  collectSpans py keywords spans []

/-- A hint: the pairing of a label with its target span
(`Hint` interface, keeping the fields the state machine reads). -/
structure HintE where
  label : Str
  node : Nat
  index : Nat
  length : Nat
deriving DecidableEq

/-- The hint-building loop of `EasyMotionManager.renderHints`: the i-th
match is paired with the i-th label, and a match whose label is falsy
(out of range or empty) is skipped. -/
def renderHints (ms : List Match) (labels : List Str) : List HintE :=
  (List.range ms.length).filterMap (fun i =>
    match labels[i]?, ms[i]? with
    | some label, some m =>
      if label.isEmpty then Option.none
      else some ⟨label, m.node, m.index, m.length⟩
    | _, _ => Option.none)

/-! ### Label-generator lemmas (claims C2, C5, C9) -/

/-- The stringified out-of-range JS indexing result. -/
def undefStr : Str := ['u', 'n', 'd', 'e', 'f', 'i', 'n', 'e', 'd']

theorem jsCharAt_lt {s : Str} {i : Nat} (h : i < s.length) :
    jsCharAt s i = [s.getD i '?'] := by
  unfold jsCharAt
  rw [List.drop_eq_getElem_cons h]
  simp [List.getD, List.getElem?_eq_getElem h]

theorem jsCharAt_ge {s : Str} {i : Nat} (h : s.length ≤ i) :
    jsCharAt s i = undefStr := by
  unfold jsCharAt
  rw [List.drop_eq_nil_of_le h]
  rfl

theorem length_generateLabels (count : Nat) :
    (generateLabels count).length = count := by
  unfold generateLabels
  split <;> simp

theorem characters_getD_inj :
    ∀ i < 12, ∀ j < 12, characters.getD i '?' = characters.getD j '?' → i = j := by
  decide

theorem generateLabels_small {count i : Nat} (hc : count ≤ 12) (hi : i < count) :
    (generateLabels count)[i]? = some [characters.getD i '?'] := by
  unfold generateLabels
  rw [if_pos (by simpa [characters] using hc)]
  rw [List.getElem?_map, List.getElem?_range (by omega)]
  simp [jsCharAt_lt (show i < characters.length by simp [characters]; omega)]

theorem generateLabels_big {count i : Nat} (hc : 12 < count) (hi : i < count) :
    (generateLabels count)[i]? =
      some (jsCharAt characters (i / 12) ++ jsCharAt characters (i % 12)) := by
  unfold generateLabels
  rw [if_neg (by simp [characters]; omega)]
  rw [List.getElem?_map, List.getElem?_range (by omega)]
  simp [characters]

theorem generateLabels_big_pair {count i : Nat} (hc : 12 < count) (hi : i < count)
    (h144 : i < 144) :
    (generateLabels count)[i]? =
      some [characters.getD (i / 12) '?', characters.getD (i % 12) '?'] := by
  rw [generateLabels_big hc hi]
  have hdiv : i / 12 < 12 := by omega
  have hmod : i % 12 < 12 := Nat.mod_lt _ (by omega)
  rw [jsCharAt_lt (by simp [characters]; omega),
    jsCharAt_lt (by simp [characters]; omega)]
  rfl

theorem generateLabels_big_undef {count i : Nat} (hc : 12 < count) (hi : i < count)
    (h144 : 144 ≤ i) :
    (generateLabels count)[i]? =
      some (undefStr ++ [characters.getD (i % 12) '?']) := by
  rw [generateLabels_big hc hi]
  have hdiv : 12 ≤ i / 12 := by omega
  have hmod : i % 12 < 12 := Nat.mod_lt _ (by omega)
  rw [jsCharAt_ge (by simp [characters]; omega),
    jsCharAt_lt (by simp [characters]; omega)]

theorem generateLabels_inj_big {i j : Nat} (hi : i < 156) (hj : j < 156)
    (h : jsCharAt characters (i / 12) ++ jsCharAt characters (i % 12) =
      jsCharAt characters (j / 12) ++ jsCharAt characters (j % 12)) : i = j := by
  have hclen : characters.length = 12 := by simp [characters]
  have hmi : i % 12 < 12 := by omega
  have hmj : j % 12 < 12 := by omega
  rw [jsCharAt_lt (show i % 12 < characters.length by omega),
    jsCharAt_lt (show j % 12 < characters.length by omega)] at h
  rcases Nat.lt_or_ge (i / 12) 12 with hdi | hdi <;>
    rcases Nat.lt_or_ge (j / 12) 12 with hdj | hdj
  · rw [jsCharAt_lt (show i / 12 < characters.length by omega),
      jsCharAt_lt (show j / 12 < characters.length by omega)] at h
    simp only [List.cons_append, List.nil_append, List.cons.injEq,
      and_true] at h
    obtain ⟨h1, h2⟩ := h
    have e1 := characters_getD_inj _ hdi _ hdj h1
    have e2 := characters_getD_inj _ hmi _ hmj h2
    omega
  · rw [jsCharAt_lt (show i / 12 < characters.length by omega),
      jsCharAt_ge (show characters.length ≤ j / 12 by omega)] at h
    have := congrArg List.length h
    simp [undefStr] at this
  · rw [jsCharAt_ge (show characters.length ≤ i / 12 by omega),
      jsCharAt_lt (show j / 12 < characters.length by omega)] at h
    have := congrArg List.length h
    simp [undefStr] at this
  · rw [jsCharAt_ge (show characters.length ≤ i / 12 by omega),
      jsCharAt_ge (show characters.length ≤ j / 12 by omega)] at h
    have h2 := List.append_cancel_left h
    simp only [List.cons.injEq, and_true] at h2
    have e2 := characters_getD_inj _ hmi _ hmj h2
    omega

theorem generateLabels_nodup {count : Nat} (h : count ≤ 156) :
    (generateLabels count).Nodup := by
  have hclen : characters.length = 12 := by simp [characters]
  unfold generateLabels
  split
  case isTrue hc =>
    refine (List.nodup_range count).map_on ?_
    intro x hx y hy hf
    simp only [List.mem_range] at hx hy
    rw [jsCharAt_lt (by omega), jsCharAt_lt (by omega)] at hf
    exact characters_getD_inj x (by omega) y (by omega)
      (by simpa using hf)
  case isFalse hc =>
    refine (List.nodup_range count).map_on ?_
    intro x hx y hy hf
    simp only [List.mem_range] at hx hy
    exact generateLabels_inj_big (by omega) (by omega) hf

/-- C5: for every candidate count `count ≤ 156` the generated labels are
pairwise distinct, and every label of length 1 is assigned before any
label of length 2 (in the code one of the two shapes is absent for each
`count`, so the ordering condition holds with nothing to reorder). -/
theorem claim_c5 (count : Nat) (h : count ≤ 156) :
    (generateLabels count).Pairwise (· ≠ ·) ∧
    ∀ (i j : Nat) (hi : i < (generateLabels count).length)
      (hj : j < (generateLabels count).length),
      ((generateLabels count).get ⟨i, hi⟩).length = 1 →
      ((generateLabels count).get ⟨j, hj⟩).length = 2 → i < j := by
  refine ⟨generateLabels_nodup h, ?_⟩
  intro i j hi hj h1 h2
  rw [length_generateLabels] at hi hj
  by_cases hc : count ≤ 12
  · have hv : (generateLabels count)[j]? = some [characters.getD j '?'] :=
      generateLabels_small hc hj
    rw [List.getElem?_eq_getElem (by rw [length_generateLabels]; omega)] at hv
    rw [List.get_eq_getElem] at h2
    rw [Option.some_inj.mp hv] at h2
    simp at h2
  · push_neg at hc
    rcases Nat.lt_or_ge i 144 with h144 | h144
    · have hv : (generateLabels count)[i]? =
          some [characters.getD (i / 12) '?', characters.getD (i % 12) '?'] :=
        generateLabels_big_pair hc hi h144
      rw [List.getElem?_eq_getElem (by rw [length_generateLabels]; omega)] at hv
      rw [List.get_eq_getElem] at h1
      rw [Option.some_inj.mp hv] at h1
      simp at h1
    · have hv : (generateLabels count)[i]? =
          some (undefStr ++ [characters.getD (i % 12) '?']) :=
        generateLabels_big_undef hc hi h144
      rw [List.getElem?_eq_getElem (by rw [length_generateLabels]; omega)] at hv
      rw [List.get_eq_getElem] at h1
      rw [Option.some_inj.mp hv] at h1
      simp [undefStr] at h1

theorem claim_c5_witness : (generateLabels 5).Pairwise (· ≠ ·) :=
  (claim_c5 5 (by decide)).1

/-- C2 (amended): when `count ≤ 12` the labels are the successive single
alphabet symbols; when `count > 12` *every* label — including the first
twelve — is the two-symbol pair `alphabet[⌊i/12⌋], alphabet[i % 12]`
with `i` the absolute zero-based index (a genuine symbol pair for
`i < 144`; past that the first component is the out-of-range JS
`undefined` rendered as text). -/
theorem claim_c2 (count i : Nat) (hi : i < count) :
    (count ≤ 12 → (generateLabels count)[i]? = some [characters.getD i '?']) ∧
    (12 < count → i < 144 → (generateLabels count)[i]? =
      some [characters.getD (i / 12) '?', characters.getD (i % 12) '?']) ∧
    (12 < count → 144 ≤ i → (generateLabels count)[i]? =
      some (undefStr ++ [characters.getD (i % 12) '?'])) :=
  ⟨fun hc => generateLabels_small hc hi,
   fun hc h144 => generateLabels_big_pair hc hi h144,
   fun hc h144 => generateLabels_big_undef hc hi h144⟩

theorem claim_c2_witness :
    (generateLabels 13)[5]? = some [characters.getD 0 '?', characters.getD 5 '?'] :=
  (claim_c2 13 5 (by decide)).2.1 (by decide) (by decide)

/-- C2 counterexample: with 13 candidates the very first label already
has two symbols (`"qq"`), not one as the claim states for the first
twelve labels when `N > 12`. -/
theorem claim_c2_counterexample :
    (generateLabels 13)[0]? = some ['q', 'q'] ∧ ¬(['q', 'q'] : Str).length = 1 := by
  decide

set_option maxRecDepth 4000 in
/-- C9 (code observation): with 145 deduplicated candidates the label of
candidate 144 is the ten-character string `"undefinedq"` — truthy, so
`renderHints` creates a hint for it rather than dropping the candidate:
all 145 candidates receive hints. -/
theorem claim_c9 :
    (generateLabels 145)[144]? = some (undefStr ++ ['q']) ∧
    (renderHints (List.replicate 145 (⟨0, 0, 1, 0, 0, Option.none⟩ : Match))
      (generateLabels 145)).length = 145 := by
  decide

/-! ### Deduplication lemmas (claim C7) -/

theorem rabs_eq_abs (x : ℚ) : rabs x = |x| := by
  unfold rabs
  rcases lt_or_ge x 0 with h | h
  · rw [if_pos h, abs_of_neg h]
  · rw [if_neg (not_lt.mpr h), abs_of_nonneg h]

/-- The invariant of the accumulator of `removeDuplicateMatches`: no
element duplicates an earlier one. -/
def NoDupNear (l : List Match) : Prop :=
  l.Pairwise (fun a b => isDupOf b a = false)

theorem dedup_step (acc : List Match) (c : Match) :
    (if acc.any (fun existing => isDupOf c existing) then acc else acc ++ [c]) =
      acc ∨
    (if acc.any (fun existing => isDupOf c existing) then acc else acc ++ [c]) =
      acc ++ [c] := by
  split <;> simp

theorem dedup_foldl_pairwise :
    ∀ (l acc : List Match), NoDupNear acc →
      NoDupNear (l.foldl
        (fun uniqueMatches current =>
          if uniqueMatches.any (fun existing => isDupOf current existing) then
            uniqueMatches
          else uniqueMatches ++ [current]) acc) := by
  intro l
  induction l with
  | nil => intro acc h; exact h
  | cons c rest ih =>
    intro acc h
    rw [List.foldl_cons]
    by_cases hany : acc.any (fun existing => isDupOf c existing) = true
    · rw [if_pos hany]
      exact ih acc h
    · rw [if_neg hany]
      refine ih _ ?_
      rw [Bool.not_eq_true, List.any_eq_false] at hany
      unfold NoDupNear at h ⊢
      rw [List.pairwise_append]
      exact ⟨h, List.pairwise_singleton _ _,
        fun a ha b hb => by
          rw [List.mem_singleton] at hb
          subst hb
          simpa using hany a ha⟩

theorem dedup_foldl_id :
    ∀ (l acc : List Match), NoDupNear l →
      (∀ a ∈ acc, ∀ b ∈ l, isDupOf b a = false) →
      (l.foldl
        (fun uniqueMatches current =>
          if uniqueMatches.any (fun existing => isDupOf current existing) then
            uniqueMatches
          else uniqueMatches ++ [current]) acc) = acc ++ l := by
  intro l
  induction l with
  | nil => intro acc _ _; simp
  | cons c rest ih =>
    intro acc hl hacc
    rw [List.foldl_cons]
    have hany : acc.any (fun existing => isDupOf c existing) = false := by
      rw [List.any_eq_false]
      intro a ha
      simpa using hacc a ha c (List.mem_cons_self c rest)
    rw [hany, if_neg (by simp)]
    have hl' : NoDupNear rest := (List.pairwise_cons.mp hl).2
    have hhead : ∀ b ∈ rest, isDupOf b c = false :=
      (List.pairwise_cons.mp hl).1
    rw [ih (acc ++ [c]) hl' ?_]
    · simp
    · intro a ha b hb
      rcases List.mem_append.mp ha with ha | ha
      · exact hacc a ha b (List.mem_cons_of_mem _ hb)
      · rw [List.mem_singleton] at ha
        subst ha
        exact hhead b hb

theorem removeDuplicateMatches_pairwise (ms : List Match) :
    NoDupNear (removeDuplicateMatches ms) :=
  dedup_foldl_pairwise ms [] (List.Pairwise.nil)

theorem removeDuplicateMatches_idem (ms : List Match) :
    removeDuplicateMatches (removeDuplicateMatches ms) =
      removeDuplicateMatches ms := by
  unfold removeDuplicateMatches
  have h := dedup_foldl_id (removeDuplicateMatches ms) []
    (removeDuplicateMatches_pairwise ms) (by intro a ha; simp at ha)
  unfold removeDuplicateMatches at h
  simpa using h

/-- C7: a candidate is kept exactly when no earlier *surviving*
candidate lies within the 5-pixel tolerance in both coordinates
(first-seen wins — `removeDuplicateMatches` is a function of the input
list, hence deterministic), and deduplication is idempotent. -/
theorem claim_c7 :
    (∀ (ms : List Match) (c : Match),
      removeDuplicateMatches (ms ++ [c]) =
        if ∃ e ∈ removeDuplicateMatches ms,
            |c.left - e.left| < 5 ∧ |c.top - e.top| < 5 then
          removeDuplicateMatches ms
        else removeDuplicateMatches ms ++ [c]) ∧
    (∀ ms : List Match,
      removeDuplicateMatches (removeDuplicateMatches ms) =
        removeDuplicateMatches ms) := by
  constructor
  · intro ms c
    have hstep : removeDuplicateMatches (ms ++ [c]) =
        if (removeDuplicateMatches ms).any (fun existing => isDupOf c existing) then
          removeDuplicateMatches ms
        else removeDuplicateMatches ms ++ [c] := by
      unfold removeDuplicateMatches
      rw [List.foldl_append]
      rfl
    rw [hstep]
    have hiff : ((removeDuplicateMatches ms).any
        (fun existing => isDupOf c existing) = true) ↔
        ∃ e ∈ removeDuplicateMatches ms,
          |c.left - e.left| < 5 ∧ |c.top - e.top| < 5 := by
      rw [List.any_eq_true]
      constructor
      · rintro ⟨e, he, hd⟩
        refine ⟨e, he, ?_⟩
        unfold isDupOf at hd
        rw [Bool.and_eq_true, decide_eq_true_eq, decide_eq_true_eq,
          rabs_eq_abs, rabs_eq_abs] at hd
        exact hd
      · rintro ⟨e, he, hd⟩
        refine ⟨e, he, ?_⟩
        unfold isDupOf
        rw [Bool.and_eq_true, decide_eq_true_eq, decide_eq_true_eq,
          rabs_eq_abs, rabs_eq_abs]
        exact hd
    by_cases hd : ∃ e ∈ removeDuplicateMatches ms,
        |c.left - e.left| < 5 ∧ |c.top - e.top| < 5
    · rw [if_pos hd, if_pos (hiff.mpr hd)]
    · rw [if_neg hd, if_neg (fun hh => hd (hiff.mp hh))]
  · exact removeDuplicateMatches_idem

/-! ### Collector lemmas (claims C4, C6, C8) -/

/-- A small concrete romanization function used to instantiate the
universally quantified theorems on concrete inputs: one syllable per
character, with pinyin for the two characters of `你好` and the
character itself elsewhere. -/
def pyDemo (s : Str) : List Str :=
  s.map (fun c =>
    if c = '你' then ['n', 'i']
    else if c = '好' then ['h', 'a', 'o']
    else [c])

theorem filterMap_eq_map_of_forall {α β : Type} (l : List α) (g : α → Option β)
    (f : α → β) (h : ∀ a ∈ l, g a = some (f a)) : l.filterMap g = l.map f := by
  induction l with
  | nil => rfl
  | cons a rest ih =>
    rw [List.filterMap_cons, h a (List.mem_cons_self a rest), List.map_cons,
      ih (fun b hb => h b (List.mem_cons_of_mem _ hb))]

theorem mem_findEnhancedMatchIndices_lt {py : Str → List Str} {text query : Str}
    {i : Nat} (h : i ∈ findEnhancedMatchIndices py text query) :
    i < text.length := by
  simp only [findEnhancedMatchIndices] at h
  split at h
  · rcases List.mem_filter.mp h with ⟨-, hlt⟩
    simpa using hlt
  · rw [List.mem_mergeSort] at h
    rcases List.mem_filter.mp h with ⟨-, hlt⟩
    simpa using hlt

theorem mem_collectToken_bound {py : Str → List Str} {node : Nat}
    {text keyword : Str} {m : Match} (h : m ∈ collectToken py node text keyword) :
    m.index + m.length ≤ text.length := by
  have henh : ∀ mm : Match, mm ∈ enhancedCands py node text keyword →
      mm.index + mm.length ≤ text.length := by
    intro mm hmm
    rcases List.mem_map.mp hmm with ⟨mi, hmi, rfl⟩
    have hlt := mem_findEnhancedMatchIndices_lt hmi
    show mi + min keyword.length (text.length - mi) ≤ text.length
    omega
  simp only [collectToken] at h
  by_cases hdir : strIncludes (lowerStr text) (lowerStr keyword) = true
  · rw [if_pos hdir] at h
    rcases List.mem_filterMap.mp h with ⟨i, hi, hsome⟩
    by_cases hguard : i + keyword.length ≤ text.length
    · rw [if_pos hguard] at hsome
      rcases Option.some_inj.mp hsome with rfl
      exact hguard
    · rw [if_neg hguard] at hsome
      exact absurd hsome (by simp)
  · rw [if_neg hdir] at h
    cases heq : matchPinyin py text keyword with
    | none =>
      rw [heq] at h
      dsimp only [] at h
      exact henh m h
    | some mr =>
      rw [heq] at h
      dsimp only [] at h
      by_cases hmr : (mr.matched && !mr.matchedIndices.isEmpty) = true
      · rw [if_pos hmr] at h
        rcases List.mem_filterMap.mp h with ⟨mi, hmi, hsome⟩
        by_cases hlt : mi < text.length
        · rw [if_pos hlt] at hsome
          rcases Option.some_inj.mp hsome with rfl
          show mi + (min (mi + keyword.length) text.length - mi) ≤ text.length
          omega
        · rw [if_neg hlt] at hsome
          exact absurd hsome (by simp)
      · rw [if_neg hmr] at h
        exact henh m h

/-- C6: every candidate the collector emits for a span occupies a
character range inside the span's text: `0 ≤ index` and
`index + length ≤ text.length` (out-of-range romanized indices are
dropped by the guards, and clamping bounds the end position). -/
theorem claim_c6 (py : Str → List Str) (node : Nat) (text : Str)
    (keywords : List Str) :
    ∀ m ∈ collectSpan py node text keywords,
      0 ≤ m.index ∧ m.index + m.length ≤ text.length := by
  intro m hm
  refine ⟨Nat.zero_le _, ?_⟩
  unfold collectSpan at hm
  split at hm
  · rcases List.mem_flatten.mp hm with ⟨sub, hsub, hmem⟩
    rcases List.mem_map.mp hsub with ⟨kw, -, rfl⟩
    split at hmem
    · exact absurd hmem (by simp)
    · exact mem_collectToken_bound hmem
  · exact absurd hm (by simp)

theorem claim_c6_witness :
    0 ≤ (⟨0, 0, 2, 0, 0, some (directResult ['a', 'b', 'c', 'a', 'b'] 0)⟩ : Match).index ∧
    (⟨0, 0, 2, 0, 0, some (directResult ['a', 'b', 'c', 'a', 'b'] 0)⟩ : Match).index +
      (⟨0, 0, 2, 0, 0, some (directResult ['a', 'b', 'c', 'a', 'b'] 0)⟩ : Match).length ≤
      (['a', 'b', 'c', 'a', 'b'] : Str).length :=
  claim_c6 pyDemo 0 ['a', 'b', 'c', 'a', 'b'] [['a', 'b']]
    ⟨0, 0, 2, 0, 0, some (directResult ['a', 'b', 'c', 'a', 'b'] 0)⟩ (by decide)

/-- C4: when a token occurs case-insensitively in a span's text, the
span passes the `enhancedMatch` gate, the per-token scan emits exactly
one candidate per occurrence offset — each of the token's length and
tagged `direct` — and the romanized/fallback strategies contribute
nothing for that token. -/
theorem claim_c4 (py : Str → List Str) (node : Nat) (text : Str)
    (keywords : List Str) (kw : Str) (hmem : kw ∈ keywords) (hne : kw ≠ [])
    (hdir : strIncludes (lowerStr text) (lowerStr kw) = true) :
    enhancedMatch py text keywords = true ∧
    collectToken py node text kw =
      (occList (lowerStr text) (lowerStr kw)).map (fun index =>
        ⟨node, index, kw.length, 0, 0, some (directResult text index)⟩) ∧
    ∀ m ∈ collectToken py node text kw,
      ∃ pr, m.pyMatch = some pr ∧ pr.type = MatchType.direct := by
  have htext : text ≠ [] := by
    intro hT
    subst hT
    rw [strIncludes_iff] at hdir
    have : (lowerStr kw).length ≤ (lowerStr ([] : Str)).length :=
      hdir.length_le
    simp at this
    exact hne (by simpa [lowerStr] using this)
  have heq : collectToken py node text kw =
      (occList (lowerStr text) (lowerStr kw)).map (fun index =>
        ⟨node, index, kw.length, 0, 0, some (directResult text index)⟩) := by
    unfold collectToken
    rw [if_pos hdir]
    refine filterMap_eq_map_of_forall _ _ _ (fun i hi => ?_)
    have hb := occList_bound hi
    rw [if_pos (by simpa using hb)]
  refine ⟨?_, heq, ?_⟩
  · unfold enhancedMatch
    rw [if_neg (by simp [List.isEmpty_iff, htext, List.ne_nil_of_mem hmem])]
    rw [List.any_eq_true]
    exact ⟨kw, hmem, by simp [List.isEmpty_iff, hne, hdir]⟩
  · intro m hm
    rw [heq] at hm
    rcases List.mem_map.mp hm with ⟨i, -, rfl⟩
    exact ⟨directResult text i, rfl, rfl⟩

theorem claim_c4_witness :
    enhancedMatch pyDemo ['a', 'b', 'c', 'a', 'b'] [['a', 'b']] = true :=
  (claim_c4 pyDemo 0 ['a', 'b', 'c', 'a', 'b'] [['a', 'b']] ['a', 'b']
    (by decide) (by decide) (by decide)).1

theorem collectSpans_length_le (py : Str → List Str) (keywords : List Str)
    (K : Nat) :
    ∀ (spans : List (Nat × Str)) (acc : List Match), acc.length ≤ 300 →
      (∀ s ∈ spans, (collectSpan py s.1 s.2 keywords).length ≤ K) →
      (collectSpans py keywords spans acc).length ≤ 300 + K := by
  intro spans
  induction spans with
  | nil =>
    intro acc hacc _
    unfold collectSpans
    omega
  | cons s rest ih =>
    intro acc hacc hK
    obtain ⟨node, text⟩ := s
    unfold collectSpans
    have hs := hK (node, text) (List.mem_cons_self _ _)
    simp only [List.length_append] at *
    split
    · simp only [List.length_append]
      omega
    · rename_i hle
      refine ih _ ?_ (fun s hs' => hK s (List.mem_cons_of_mem _ hs'))
      simp only [List.length_append] at hle ⊢
      omega

/-- C8 (amended): the 300-candidate cap is only checked between spans,
so the collector stops walking further spans once the total exceeds 300;
the total is therefore bounded by 300 plus the yield of a single span
(not by 300 itself). -/
theorem claim_c8 (py : Str → List Str) (spans : List (Nat × Str))
    (keywords : List Str) (K : Nat)
    (hK : ∀ s ∈ spans, (collectSpan py s.1 s.2 keywords).length ≤ K) :
    (findVisibleMatchesWithPinyin py spans keywords).length ≤ 300 + K :=
  collectSpans_length_le py keywords K spans [] (by simp) hK

theorem claim_c8_witness :
    (findVisibleMatchesWithPinyin pyDemo [(0, ['a', 'a', 'a', 'a'])]
      [['a']]).length ≤ 300 + 4 :=
  claim_c8 pyDemo [(0, ['a', 'a', 'a', 'a'])] [['a']] 4 (by decide)

set_option maxRecDepth 8000 in
/-- C8 counterexample: 76 visible spans of text `"aaaa"` with token
`"a"` yield 304 emitted candidates — the walk only stops after the span
that pushes the total past 300, so the session total exceeds 300. -/
theorem claim_c8_counterexample :
    300 < (findVisibleMatchesWithPinyin pyDemo
      (List.replicate 76 (0, ['a', 'a', 'a', 'a'])) [['a']]).length := by
  decide

/-! ### Active-state keystroke handling (claim C3)

`handleKeyDown` (easymotion.ts) first ignores key repeats and handles
the double-Alt activation gesture and the search-bar state; the model
below covers the `this.active` branch, which owns the input buffer. -/

/-- The live state the `Active` branch reads and writes: the input
buffer, the hint list, and the active flag. -/
structure ActiveState where
  inputBuffer : Str
  hints : List HintE
  active : Bool
deriving DecidableEq

/-- The outcome of one keystroke: the successor state and the jump
target passed to `jumpTo`, when a jump happened. -/
structure StepResult where
  state : ActiveState
  jump : Option HintE
deriving DecidableEq

/-- Effect of `deactivate()` on the modelled state: hints are cleared
and the session leaves `Active` (the buffer field is not touched by
`deactivate`; it is re-initialised on the next activation). -/
def deactivateState (st : ActiveState) : ActiveState :=
  ⟨st.inputBuffer, [], false⟩

/-- Model of `EasyMotionManager.checkHints`: try the extended buffer against the
hint labels — an exact match jumps and deactivates, a proper prefix
match commits the extended buffer, otherwise the keystroke is
discarded. -/
def checkHintsStep (st : ActiveState) (key : Str) : StepResult :=
  let nextBuffer := st.inputBuffer ++ key
  match st.hints.find? (fun h => h.label == nextBuffer) with
  | some m => ⟨deactivateState st, some m⟩
  | Option.none =>
    if (st.hints.filter (fun h => nextBuffer.isPrefixOf h.label)).length > 0 then
      ⟨⟨nextBuffer, st.hints, st.active⟩, Option.none⟩
    else ⟨st, Option.none⟩

/-- The `this.active` branch of `EasyMotionManager.handleKeyDown`:
the pressed key is lowercased; `Escape` deactivates, `Backspace` drops
the last buffer character when the buffer is non-empty, and a key the
label alphabet contains is fed to `checkHints`. -/
def handleActiveKey (st : ActiveState) (key : Str) : StepResult :=
  let k := lowerStr key
  if k = ['e', 's', 'c', 'a', 'p', 'e'] then ⟨deactivateState st, Option.none⟩
  else if k = ['b', 'a', 'c', 'k', 's', 'p', 'a', 'c', 'e'] then
    if st.inputBuffer.length > 0 then
      ⟨⟨st.inputBuffer.dropLast, st.hints, st.active⟩, Option.none⟩
    else ⟨st, Option.none⟩
  else if strIncludes characters k then checkHintsStep st k
  else ⟨st, Option.none⟩

theorem char_toLower_of_mem_characters {c : Char} (h : c ∈ characters) :
    c.toLower = c := by
  have hall : characters.all (fun d => d.toLower == d) = true := by decide
  have := List.all_eq_true.mp hall c h
  simpa using this

theorem strIncludes_singleton_of_mem {c : Char} (h : c ∈ characters) :
    strIncludes characters [c] = true := by
  rw [strIncludes_iff]
  rcases List.mem_iff_append.mp h with ⟨s, t, heq⟩
  rw [heq]
  exact ⟨s, t, by simp⟩

theorem checkHintsStep_eq (buffer : Str) (hints : List HintE) (act : Bool)
    (key : Str) :
    checkHintsStep ⟨buffer, hints, act⟩ key =
      match hints.find? (fun h => h.label == buffer ++ key) with
      | some m => ⟨⟨buffer, [], false⟩, some m⟩
      | Option.none =>
        if (hints.filter (fun h => (buffer ++ key).isPrefixOf h.label)).length > 0 then
          ⟨⟨buffer ++ key, hints, act⟩, Option.none⟩
        else ⟨⟨buffer, hints, act⟩, Option.none⟩ := rfl

/-- C3: in the `Active` state, a pressed alphabet character `c` is
appended to the buffer and (1) if the extended buffer equals some hint's
label the session jumps to that hint and deactivates, (2) otherwise if
it is still a prefix of some hint's label the extended buffer is kept
with no jump, (3) otherwise the keystroke is rejected and the buffer is
unchanged; and Backspace drops the last buffer character, a no-op on an
empty buffer. -/
theorem claim_c3 (hints : List HintE) (buffer : Str) (c : Char)
    (hc : c ∈ characters) :
    ((∃ h ∈ hints, h.label = buffer ++ [c]) →
      ∃ h, h ∈ hints ∧ h.label = buffer ++ [c] ∧
        (handleActiveKey ⟨buffer, hints, true⟩ [c]).jump = some h ∧
        (handleActiveKey ⟨buffer, hints, true⟩ [c]).state.active = false) ∧
    ((¬ ∃ h ∈ hints, h.label = buffer ++ [c]) →
      (∃ h ∈ hints, (buffer ++ [c]) <+: h.label) →
      (handleActiveKey ⟨buffer, hints, true⟩ [c]).state.inputBuffer = buffer ++ [c] ∧
      (handleActiveKey ⟨buffer, hints, true⟩ [c]).jump = Option.none ∧
      (handleActiveKey ⟨buffer, hints, true⟩ [c]).state.active = true) ∧
    ((¬ ∃ h ∈ hints, (buffer ++ [c]) <+: h.label) →
      (handleActiveKey ⟨buffer, hints, true⟩ [c]).state = ⟨buffer, hints, true⟩ ∧
      (handleActiveKey ⟨buffer, hints, true⟩ [c]).jump = Option.none) ∧
    (handleActiveKey ⟨buffer, hints, true⟩
        ['b', 'a', 'c', 'k', 's', 'p', 'a', 'c', 'e'] =
      ⟨⟨buffer.dropLast, hints, true⟩, Option.none⟩) := by
  have hlower : lowerStr [c] = [c] := by
    simp [lowerStr, char_toLower_of_mem_characters hc]
  have hne1 : lowerStr [c] ≠ ['e', 's', 'c', 'a', 'p', 'e'] := by
    rw [hlower]
    intro hh
    exact absurd (congrArg List.length hh) (by simp)
  have hne2 : lowerStr [c] ≠ ['b', 'a', 'c', 'k', 's', 'p', 'a', 'c', 'e'] := by
    rw [hlower]
    intro hh
    exact absurd (congrArg List.length hh) (by simp)
  have hroute : handleActiveKey ⟨buffer, hints, true⟩ [c] =
      checkHintsStep ⟨buffer, hints, true⟩ [c] := by
    unfold handleActiveKey
    dsimp only []
    rw [if_neg hne1, if_neg hne2,
      if_pos (by rw [hlower]; exact strIncludes_singleton_of_mem hc), hlower]
  refine ⟨?_, ?_, ?_, ?_⟩
  · rintro ⟨h0, hh0, hlab⟩
    rw [hroute, checkHintsStep_eq]
    have hfind : (hints.find? (fun h => h.label == buffer ++ [c])).isSome := by
      rw [List.find?_isSome]
      exact ⟨h0, hh0, by simp [hlab]⟩
    cases hf : hints.find? (fun h => h.label == buffer ++ [c]) with
    | none =>
      rw [hf] at hfind
      simp at hfind
    | some m =>
      refine ⟨m, List.mem_of_find?_eq_some hf, ?_, rfl, rfl⟩
      have := List.find?_some hf
      simpa using this
  · intro hnone hpref
    rw [hroute, checkHintsStep_eq]
    have hfind : hints.find? (fun h => h.label == buffer ++ [c]) = Option.none := by
      rw [List.find?_eq_none]
      intro h0 hh0
      simp only [beq_iff_eq]
      intro hlab
      exact hnone ⟨h0, hh0, hlab⟩
    rw [hfind]
    rcases hpref with ⟨h0, hh0, hp⟩
    have hfilter :
        (hints.filter (fun h => (buffer ++ [c]).isPrefixOf h.label)).length > 0 := by
      have hmem : h0 ∈ hints.filter (fun h => (buffer ++ [c]).isPrefixOf h.label) :=
        List.mem_filter.mpr ⟨hh0, by rw [ List.isPrefixOf_iff_prefix]; exact hp⟩
      exact List.length_pos.mpr (List.ne_nil_of_mem hmem)
    rw [if_pos hfilter]
    exact ⟨rfl, rfl, rfl⟩
  · intro hnopref
    rw [hroute, checkHintsStep_eq]
    have hfind : hints.find? (fun h => h.label == buffer ++ [c]) = Option.none := by
      rw [List.find?_eq_none]
      intro h0 hh0
      simp only [beq_iff_eq]
      intro hlab
      exact hnopref ⟨h0, hh0, hlab ▸ List.prefix_refl _⟩
    rw [hfind]
    have hfilter :
        ¬(hints.filter (fun h => (buffer ++ [c]).isPrefixOf h.label)).length > 0 := by
      intro hpos
      rcases List.exists_mem_of_length_pos hpos with ⟨h0, hh0⟩
      rcases List.mem_filter.mp hh0 with ⟨hmem, hp⟩
      rw [ List.isPrefixOf_iff_prefix] at hp
      exact hnopref ⟨h0, hmem, hp⟩
    rw [if_neg hfilter]
    exact ⟨rfl, rfl⟩
  · unfold handleActiveKey
    dsimp only []
    rw [show lowerStr ['b', 'a', 'c', 'k', 's', 'p', 'a', 'c', 'e'] =
        ['b', 'a', 'c', 'k', 's', 'p', 'a', 'c', 'e'] from by decide]
    rw [if_neg (by decide), if_pos rfl]
    by_cases hb : buffer.length > 0
    · rw [if_pos hb]
    · rw [if_neg hb]
      have hbe : buffer = [] := by
        cases buffer with
        | nil => rfl
        | cons x xs => simp at hb
      subst hbe
      rfl

theorem claim_c3_witness :
    (handleActiveKey
        ⟨[], [⟨['a'], 0, 0, 1⟩, ⟨['s', 'd'], 1, 5, 1⟩], true⟩
        ['s']).state.inputBuffer = [] ++ ['s'] :=
  ((claim_c3 [⟨['a'], 0, 0, 1⟩, ⟨['s', 'd'], 1, 5, 1⟩] [] 's'
      (by decide)).2.1 (by decide) (by decide)).1

/-! ### Strategy order of the query matcher (claims C1, C10) -/

/-- The sub-token retry order stated by the specification: each
whitespace-split sub-token of the query is tried against the
space-joined romanized form, then against the initials. -/
def specPartType (py : Str → List Str) (t : Str) : List Str → MatchType
  | [] => MatchType.noMatch
  | p :: rest =>
    if lowerStr p <:+: lowerStr (joinSpace (py t)) then MatchType.partPinyin
    else if lowerStr p <:+: lowerStr (getPinyinInitials py t) then
      MatchType.partInitials
    else specPartType py t rest

/-- The strategy order stated by the specification, written with
independent substring predicates: case-preserving direct substring of
the text, lowered substring of the space-joined romanized form, of the
concatenated romanized form, of the initials, then the per-sub-token
retries. -/
def specType (py : Str → List Str) (t q : Str) : MatchType :=
  if q <:+: t then MatchType.direct
  else if lowerStr q <:+: lowerStr (joinSpace (py t)) then MatchType.pinyin
  else if lowerStr q <:+: lowerStr (joinAll (py t)) then MatchType.pinyin
  else if lowerStr q <:+: lowerStr (getPinyinInitials py t) then MatchType.initials
  else specPartType py t (splitWs q)

theorem tryParts_cases (py : Str → List Str) (t : Str) :
    ∀ l : List Str,
      (tryParts t (joinSpace (py t)) (getPinyinInitials py t) (l.map lowerStr) =
          Option.none ∧
        specPartType py t l = MatchType.noMatch) ∨
      (∃ r, tryParts t (joinSpace (py t)) (getPinyinInitials py t)
          (l.map lowerStr) = some r ∧
        r.matched = true ∧ r.type = specPartType py t l ∧
        specPartType py t l ≠ MatchType.noMatch) := by
  intro l
  induction l with
  | nil => exact Or.inl ⟨rfl, rfl⟩
  | cons p rest ih =>
    rw [List.map_cons]
    unfold tryParts specPartType
    by_cases h1 : lowerStr p <:+: lowerStr (joinSpace (py t))
    · rw [if_pos (strIncludes_iff.mpr h1), if_pos h1]
      exact Or.inr ⟨_, rfl, rfl, rfl, by simp⟩
    · rw [if_neg (fun hh => h1 (strIncludes_iff.mp hh)), if_neg h1]
      by_cases h2 : lowerStr p <:+: lowerStr (getPinyinInitials py t)
      · rw [lowerStr_getPinyinInitials] at h2
        rw [if_pos (strIncludes_iff.mpr h2),
          if_pos (by rw [lowerStr_getPinyinInitials]; exact h2)]
        exact Or.inr ⟨_, rfl, rfl, rfl, by simp⟩
      · rw [if_neg (fun hh => h2 (by
            rw [lowerStr_getPinyinInitials]
            exact strIncludes_iff.mp hh)),
          if_neg h2]
        exact ih

/-- C1: for every romanization function and non-empty text and query,
`matchPinyin` returns a result whose `type` is that of the first
successful strategy in the specified order — direct substring, lowered
space-joined romanization, lowered concatenated romanization, lowered
initials, then each whitespace sub-token against the space-joined
romanization and the initials — and `noMatch` with `matched = false`
exactly when every strategy fails. -/
theorem claim_c1 (py : Str → List Str) (t q : Str) (ht : t ≠ []) (hq : q ≠ []) :
    ∃ r, matchPinyin py t q = some r ∧ r.type = specType py t q ∧
      (r.matched = true ↔ specType py t q ≠ MatchType.noMatch) := by
  unfold matchPinyin specType
  dsimp only []
  rw [if_neg (by simp [List.isEmpty_iff, ht, hq])]
  by_cases h1 : q <:+: t
  · rw [if_pos (strIncludes_iff.mpr h1), if_pos h1]
    exact ⟨_, rfl, rfl, by simp⟩
  · rw [if_neg (fun hh => h1 (strIncludes_iff.mp hh)), if_neg h1]
    by_cases h2 : lowerStr q <:+: lowerStr (joinSpace (py t))
    · rw [if_pos (strIncludes_iff.mpr h2), if_pos h2]
      exact ⟨_, rfl, rfl, by simp⟩
    · rw [if_neg (fun hh => h2 (strIncludes_iff.mp hh)), if_neg h2]
      by_cases h3 : lowerStr q <:+: lowerStr (joinAll (py t))
      · rw [if_pos (strIncludes_iff.mpr h3), if_pos h3]
        exact ⟨_, rfl, rfl, by simp⟩
      · rw [if_neg (fun hh => h3 (strIncludes_iff.mp hh)), if_neg h3]
        by_cases h4 : lowerStr q <:+: lowerStr (getPinyinInitials py t)
        · rw [lowerStr_getPinyinInitials] at h4
          rw [if_pos (strIncludes_iff.mpr h4),
            if_pos (by rw [lowerStr_getPinyinInitials]; exact h4)]
          exact ⟨_, rfl, rfl, by simp⟩
        · rw [if_neg (fun hh => h4 (by
              rw [lowerStr_getPinyinInitials]
              exact strIncludes_iff.mp hh)),
            if_neg h4]
          rw [splitWs_lowerStr]
          rcases tryParts_cases py t (splitWs q) with ⟨hnone, hspec⟩ |
            ⟨r0, hsome, hmatched, htype, hne⟩
          · rw [hnone, hspec]
            exact ⟨_, rfl, rfl, by simp⟩
          · rw [hsome]
            exact ⟨r0, rfl, htype, by simp [hmatched, hne]⟩

theorem claim_c1_witness :
    ∃ r, matchPinyin pyDemo ['你', '好'] ['n', 'i'] = some r ∧
      r.type = specType pyDemo ['你', '好'] ['n', 'i'] ∧
      (r.matched = true ↔
        specType pyDemo ['你', '好'] ['n', 'i'] ≠ MatchType.noMatch) :=
  claim_c1 pyDemo ['你', '好'] ['n', 'i'] (by decide) (by decide)

theorem mem_findMatchIndices {s qq : Str} {i : Nat}
    (h : i ∈ findMatchIndices s qq) :
    lowerStr qq <+: (lowerStr s).drop i := (mem_occList.mp h).2

theorem findMatchIndices_ne_nil {s qq : Str} (hq : qq ≠ [])
    (h : lowerStr qq <:+: lowerStr s) : findMatchIndices s qq ≠ [] := by
  refine occList_ne_nil ?_ h
  simp [lowerStr, hq]

theorem tryParts_result (py : Str → List Str) (t : Str) :
    ∀ (l : List Str) (r : PinyinMatchResult),
      tryParts t (joinSpace (py t)) (getPinyinInitials py t) l = some r →
      ∃ p ∈ l,
        (strIncludes (lowerStr (joinSpace (py t))) p = true ∧
          r = ⟨true, MatchType.partPinyin, some (joinSpace (py t)), t,
            findMatchIndices (joinSpace (py t)) p⟩) ∨
        (strIncludes (getPinyinInitials py t) p = true ∧
          r = ⟨true, MatchType.partInitials, some (getPinyinInitials py t), t,
            findMatchIndices (getPinyinInitials py t) p⟩) := by
  intro l
  induction l with
  | nil =>
    intro r hr
    exact absurd hr (by simp [tryParts])
  | cons p rest ih =>
    intro r hr
    unfold tryParts at hr
    by_cases h1 : strIncludes (lowerStr (joinSpace (py t))) p = true
    · rw [if_pos h1] at hr
      exact ⟨p, List.mem_cons_self _ _,
        Or.inl ⟨h1, (Option.some_inj.mp hr).symm⟩⟩
    · rw [if_neg h1] at hr
      by_cases h2 : strIncludes (getPinyinInitials py t) p = true
      · rw [if_pos h2] at hr
        exact ⟨p, List.mem_cons_self _ _,
          Or.inr ⟨h2, (Option.some_inj.mp hr).symm⟩⟩
      · rw [if_neg h2] at hr
        rcases ih r hr with ⟨p', hp', hcase⟩
        exact ⟨p', List.mem_cons_of_mem _ hp', hcase⟩

/-- C10: whenever `matchPinyin` returns, its result has a non-empty
`matchedIndices` list and each listed index is the start of a
case-insensitive occurrence of the matched query (or whitespace
sub-token of it) inside the string the result records as compared
against — the original text for `direct`, otherwise the `pinyin` field.
The sub-token hypothesis excludes exactly the queries (with leading or
trailing whitespace) on which the source's `indexOf` loop would not
terminate, so that `matchPinyin` never actually returns there. -/
theorem claim_c10 (py : Str → List Str) (t q : Str) (r : PinyinMatchResult)
    (hr : matchPinyin py t q = some r) (hm : r.matched = true)
    (hparts : ∀ p ∈ splitWs (lowerStr q), p ≠ []) :
    r.matchedIndices ≠ [] ∧
    ∃ qq, (qq = q ∨ qq ∈ splitWs (lowerStr q)) ∧
      ∀ i ∈ r.matchedIndices,
        lowerStr qq <+: (lowerStr (r.pinyin.getD r.originalText)).drop i := by
  have hq : q ≠ [] := by
    intro hh
    subst hh
    simp [matchPinyin] at hr
  have ht : t ≠ [] := by
    intro hh
    subst hh
    simp [matchPinyin] at hr
  unfold matchPinyin at hr
  dsimp only [] at hr
  rw [if_neg (by simp [List.isEmpty_iff, ht, hq])] at hr
  by_cases h1 : strIncludes t q = true
  · rw [if_pos h1] at hr
    cases Option.some_inj.mp hr
    refine ⟨findMatchIndices_ne_nil hq (lowerStr_mono (strIncludes_iff.mp h1)),
      q, Or.inl rfl, ?_⟩
    intro i hi
    exact mem_findMatchIndices hi
  · rw [if_neg h1] at hr
    by_cases h2 : strIncludes (lowerStr (joinSpace (py t))) (lowerStr q) = true
    · rw [if_pos h2] at hr
      cases Option.some_inj.mp hr
      have hinf : lowerStr q <:+: lowerStr (joinSpace (py t)) := by
        have := strIncludes_iff.mp h2
        calc lowerStr q = lowerStr (lowerStr q) := (lowerStr_lowerStr q).symm
          _ <:+: lowerStr (lowerStr (joinSpace (py t))) := lowerStr_mono this
          _ = lowerStr (joinSpace (py t)) := lowerStr_lowerStr _
      refine ⟨findMatchIndices_ne_nil hq hinf, q, Or.inl rfl, ?_⟩
      intro i hi
      exact mem_findMatchIndices hi
    · rw [if_neg h2] at hr
      by_cases h3 : strIncludes (lowerStr (joinAll (py t))) (lowerStr q) = true
      · rw [if_pos h3] at hr
        cases Option.some_inj.mp hr
        have hinf : lowerStr q <:+: lowerStr (joinAll (py t)) := by
          have := strIncludes_iff.mp h3
          calc lowerStr q = lowerStr (lowerStr q) := (lowerStr_lowerStr q).symm
            _ <:+: lowerStr (lowerStr (joinAll (py t))) := lowerStr_mono this
            _ = lowerStr (joinAll (py t)) := lowerStr_lowerStr _
        refine ⟨findMatchIndices_ne_nil hq hinf, q, Or.inl rfl, ?_⟩
        intro i hi
        exact mem_findMatchIndices hi
      · rw [if_neg h3] at hr
        by_cases h4 : strIncludes (getPinyinInitials py t) (lowerStr q) = true
        · rw [if_pos h4] at hr
          cases Option.some_inj.mp hr
          have hinf : lowerStr q <:+: lowerStr (getPinyinInitials py t) := by
            rw [lowerStr_getPinyinInitials]
            have := strIncludes_iff.mp h4
            calc lowerStr q = lowerStr (lowerStr q) := (lowerStr_lowerStr q).symm
              _ <:+: lowerStr (getPinyinInitials py t) := lowerStr_mono this
              _ = getPinyinInitials py t := lowerStr_getPinyinInitials py t
          refine ⟨findMatchIndices_ne_nil hq hinf, q, Or.inl rfl, ?_⟩
          intro i hi
          exact mem_findMatchIndices hi
        · rw [if_neg h4] at hr
          cases htp : tryParts t (joinSpace (py t)) (getPinyinInitials py t)
              (splitWs (lowerStr q)) with
          | none =>
            rw [htp] at hr
            dsimp only [] at hr
            cases Option.some_inj.mp hr
            simp at hm
          | some r0 =>
            rw [htp] at hr
            dsimp only [] at hr
            cases Option.some_inj.mp hr
            rcases tryParts_result py t _ r htp with ⟨p, hp, hcase⟩
            have hpne : p ≠ [] := hparts p hp
            have hplow : lowerStr p = p := mem_splitWs_lowerStr hp
            rcases hcase with ⟨hinc, rfl⟩ | ⟨hinc, rfl⟩
            · have hinf : lowerStr p <:+: lowerStr (joinSpace (py t)) := by
                rw [hplow]
                exact strIncludes_iff.mp hinc
              refine ⟨findMatchIndices_ne_nil hpne hinf, p, Or.inr hp, ?_⟩
              intro i hi
              exact mem_findMatchIndices hi
            · have hinf : lowerStr p <:+: lowerStr (getPinyinInitials py t) := by
                rw [hplow, lowerStr_getPinyinInitials]
                exact strIncludes_iff.mp hinc
              refine ⟨findMatchIndices_ne_nil hpne hinf, p, Or.inr hp, ?_⟩
              intro i hi
              exact mem_findMatchIndices hi

theorem claim_c10_witness :
    (⟨true, MatchType.pinyin, some ['n', 'i', ' ', 'h', 'a', 'o'], ['你', '好'],
        [0]⟩ : PinyinMatchResult).matchedIndices ≠ [] ∧
    ∃ qq, (qq = ['n', 'i'] ∨ qq ∈ splitWs (lowerStr ['n', 'i'])) ∧
      ∀ i ∈ (⟨true, MatchType.pinyin, some ['n', 'i', ' ', 'h', 'a', 'o'],
          ['你', '好'], [0]⟩ : PinyinMatchResult).matchedIndices,
        lowerStr qq <+:
          (lowerStr ((⟨true, MatchType.pinyin,
              some ['n', 'i', ' ', 'h', 'a', 'o'], ['你', '好'], [0]⟩ :
            PinyinMatchResult).pinyin.getD
              (⟨true, MatchType.pinyin, some ['n', 'i', ' ', 'h', 'a', 'o'],
                ['你', '好'], [0]⟩ : PinyinMatchResult).originalText)).drop i :=
  claim_c10 pyDemo ['你', '好'] ['n', 'i']
    ⟨true, MatchType.pinyin, some ['n', 'i', ' ', 'h', 'a', 'o'], ['你', '好'], [0]⟩
    (by decide) (by decide) (by decide)

end EasyMotion
